import Mathlib

set_option maxRecDepth 40000

/-!
Verification of the Kindle clippings parsing engine (`src/js/parser.js`).

The development shallowly embeds the JavaScript code: strings are `List Char`
(wrapped in `String` at the interfaces), the ambient clock and the
implementation-defined `new Date(string)` parser are explicit parameters,
JavaScript `Date` values are `JSDate` (`none` models an Invalid Date, whose
time value is NaN; `some t` a valid date with epoch-milliseconds `t`), and the
mutable parser object is explicit state (`ParserState`).  Each regular
expression of the source is translated into an executable scanning function
with the exact leftmost/greedy/lazy backtracking semantics of the original
pattern.
-/

/-! ## JavaScript character classes and string primitives -/

/-- The set matched by the JavaScript regexp class `\s` (WhiteSpace and
LineTerminator productions), which is also the set trimmed by
`String.prototype.trim`. -/
def jsIsSpace (c : Char) : Bool :=
  let n := c.toNat
  n == 9 || n == 10 || n == 11 || n == 12 || n == 13 || n == 32 ||
  n == 160 || n == 5760 || (8192 ≤ n && n ≤ 8202) || n == 8232 ||
  n == 8233 || n == 8239 || n == 8287 || n == 12288 || n == 65279

/-- The set matched by the JavaScript regexp class `\d`. -/
def jsIsDigit (c : Char) : Bool :=
  48 ≤ c.toNat && c.toNat ≤ 57

/-- The set matched by the JavaScript regexp class `\w` (used by `\b`). -/
def jsIsWordChar (c : Char) : Bool :=
  jsIsDigit c || (65 ≤ c.toNat && c.toNat ≤ 90) || (97 ≤ c.toNat && c.toNat ≤ 122) ||
  c.toNat == 95

/-- The set matched by the JavaScript regexp metacharacter `.` without the `s`
flag: every character except the four LineTerminators. -/
def jsDot (c : Char) : Bool :=
  let n := c.toNat
  !(n == 10 || n == 13 || n == 8232 || n == 8233)

/-- `String.prototype.trim`. -/
def jsTrim (l : List Char) : List Char :=
  ((l.dropWhile jsIsSpace).reverse.dropWhile jsIsSpace).reverse

/-- Literal (case-sensitive) prefix test on character lists. -/
def listStartsWith : List Char → List Char → Bool
  | [], _ => true
  | _ :: _, [] => false
  | p :: ps, c :: cs => p == c && listStartsWith ps cs

/-- Case-insensitive character comparison; the `i` regexp flag.  (Simple case
folding restricted to ASCII, which is all the source patterns use.) -/
def ciEq (a b : Char) : Bool :=
  a.toLower == b.toLower

/-- Case-insensitive literal prefix test. -/
def ciStartsWith : List Char → List Char → Bool
  | [], _ => true
  | _ :: _, [] => false
  | p :: ps, c :: cs => ciEq p c && ciStartsWith ps cs

/-- `String.prototype.includes` with a literal pattern. -/
def hasSubstr (pat : List Char) : List Char → Bool
  | [] => listStartsWith pat []
  | c :: r => listStartsWith pat (c :: r) || hasSubstr pat r

/-- Leftmost-position scan: try an anchored matcher at every suffix, first
success wins.  This is how an unanchored JavaScript regexp searches. -/
def scanFirst {α : Type} (g : List Char → Option α) : List Char → Option α
  | [] => g []
  | c :: r =>
    match g (c :: r) with
    | some x => some x
    | none => scanFirst g r

/-- `String.prototype.split` with separator `"\n"`. -/
def splitNlAux : List Char → List Char → List (List Char)
  | [], acc => [acc.reverse]
  | c :: r, acc =>
    if c == '\n' then acc.reverse :: splitNlAux r []
    else splitNlAux r (c :: acc)

def splitNl (l : List Char) : List (List Char) :=
  splitNlAux l []

/-- The entry delimiter of the clippings format: ten equals signs. -/
def sepTen : List Char :=
  "==========".data

/-- `String.prototype.split` with the literal separator `"=========="`:
leftmost non-overlapping occurrences, empty pieces kept.  The `fuel`
argument (instantiated with the length of the input, an upper bound on the
number of steps) keeps the recursion structural so that the kernel can
evaluate the function. -/
def splitTenAux : Nat → List Char → List Char → List (List Char)
  | _, [], acc => [acc.reverse]
  | 0, c :: r, acc => [acc.reverse ++ c :: r]
  | fuel + 1, c :: r, acc =>
    if listStartsWith sepTen (c :: r) then
      acc.reverse :: splitTenAux fuel ((c :: r).drop sepTen.length) []
    else
      splitTenAux fuel r (c :: acc)

def splitTen (l : List Char) : List (List Char) :=
  splitTenAux l.length l []

/-! Quick sanity checks of the primitives. -/

example : jsTrim " ab ".data = "ab".data := by decide
example : splitNl "a\nb".data = ["a".data, "b".data] := by decide
example : splitTen "a==========b".data = ["a".data, "b".data] := by decide
example : splitTen "==========".data = ["".data, "".data] := by decide
example : hasSubstr "Note".data "- Your Note on".data = true := by decide

/-! ## The regular expressions of `parseMetadata`

Each unanchored pattern is translated as `scanFirst` of an anchored matcher,
reproducing the engine's leftmost-match search. -/

/-- Anchored matcher for `/Location (\d+(?:-\d+)?)/`: the literal
`"Location "`, then a maximal digit run (greedy `\d+`), then optionally a
hyphen followed by a second maximal digit run; the optional group is taken
when present (greedy `?`). -/
def locTry (l : List Char) : Option (List Char) :=
  if listStartsWith ("Location ".data) l then
    let t := l.drop 9
    let d1 := t.takeWhile jsIsDigit
    if d1 = [] then none
    else
      match t.drop d1.length with
      | '-' :: t2 =>
        let d2 := t2.takeWhile jsIsDigit
        if d2 = [] then some d1 else some (d1 ++ '-' :: d2)
      | _ => some d1
  else none

def locationSearch (l : List Char) : Option (List Char) :=
  scanFirst locTry l

/-- Anchored matcher for `/page (\d+)/`. -/
def pageTry (l : List Char) : Option (List Char) :=
  if listStartsWith ("page ".data) l then
    let d1 := (l.drop 5).takeWhile jsIsDigit
    if d1 = [] then none else some d1
  else none

def pageSearch (l : List Char) : Option (List Char) :=
  scanFirst pageTry l

/-- Anchored matcher for `/Added on (.+?)$/`: the literal `"Added on "`, then
a lazy `.+?` that must stretch to the end-of-input anchor `$`, so the capture
is the whole rest of the line provided it is non-empty and free of
line terminators (which `.` cannot cross). -/
def addedTry (l : List Char) : Option (List Char) :=
  if listStartsWith ("Added on ".data) l then
    let t := l.drop 9
    if t ≠ [] ∧ t.all jsDot then some t else none
  else none

def addedSearch (l : List Char) : Option (List Char) :=
  scanFirst addedTry l

example : locationSearch "- Your Highlight on Location 150-152 | Added on X".data
    = some ("150-152".data) := by decide
example : locationSearch "- Location x Location 7".data = some ("7".data) := by decide
example : pageSearch "- Highlight on page 32 | x".data = some ("32".data) := by decide
example : addedSearch "- Bookmark | Added on Monday, April 1".data
    = some ("Monday, April 1".data) := by decide

/-! ## Title/author extraction (`parseTitleAuthor`)

The pattern is `/^(.+?)\s*\(([^)]+)\)$/`.  The lazy `.+?` makes the engine
try the shortest possible first group, growing it one character at a time;
for each candidate length `a` the rest of the match is deterministic: the
greedy `\s*` must stop exactly at a literal `(` (whitespace can never be
`(`), the greedy `([^)]+)` must run to the single `)` that terminates the
string (it cannot cross a `)`, and `$` admits nothing after it). -/

/-- One candidate of the backtracking search: first group of length `a`
(the lazy `.+?` takes `a` characters, none of them a line terminator), then
the maximal whitespace run (`\\s*`), which must end exactly at a literal
`(`; the second group must run to the `)` closing the string, be non-empty
and contain no `)`. -/
def taTry (s : List Char) (a : Nat) : Option (List Char × List Char) :=
  let A := s.take a
  let rest := (s.drop a).dropWhile jsIsSpace
  let B := (rest.drop 1).dropLast
  if A ≠ [] ∧ A.all jsDot ∧ rest.head? = some '(' ∧ rest.getLast? = some ')' ∧
      2 ≤ rest.length ∧ B ≠ [] ∧ B.all (fun c => c ≠ ')')
  then some (A, B)
  else none

/-- Iterate `taTry` over candidate first-group lengths `a, a+1, …`,
shortest first (lazy `.+?`).  `fuel` bounds the iteration count so the
recursion is structural; `matchTA` supplies enough fuel to reach the end of
the string. -/
def taGo : Nat → List Char → Nat → Option (List Char × List Char)
  | 0, _, _ => none
  | fuel + 1, s, a =>
    if a ≥ s.length then none
    else
      match taTry s a with
      | some r => some r
      | none => taGo fuel s (a + 1)

def matchTA (s : List Char) : Option (List Char × List Char) :=
  taGo s.length s 1

/-- Removal of a single leading byte-order mark: `replace(/^﻿/, '')`. -/
def stripBOM (l : List Char) : List Char :=
  match l with
  | c :: r => if c.toNat == 65279 then r else l
  | [] => []

/-- `parseTitleAuthor` from the source: on a match of the pattern, the
trimmed first group and trimmed parenthesized group; otherwise the
(BOM-stripped) line with the author sentinel `"Unknown"`. -/
def parseTitleAuthor (titleLine : String) : String × String :=
  let l := stripBOM titleLine.data
  match matchTA l with
  | some (T, A) => (String.mk (jsTrim T), String.mk (jsTrim A))
  | none => (String.mk l, "Unknown")

example : parseTitleAuthor "Deep Work (Cal Newport)" = ("Deep Work", "Cal Newport") := by
  decide
example : parseTitleAuthor "Some Notes Without Parens" = ("Some Notes Without Parens", "Unknown") := by
  decide
example : parseTitleAuthor "ab (x) (y)" = ("ab (x)", "y") := by decide
example : parseTitleAuthor "\uFEFFB (A)" = ("B", "A") := by decide
example : parseTitleAuthor "a (b) c)" = ("a (b) c)", "Unknown") := by decide

/-! ## Dates

JavaScript `Date` values are modelled by `JSDate`: `some t` is a valid date
whose time value is the integer `t` (epoch milliseconds); `none` is an
Invalid Date, i.e. a `Date` object whose time value is NaN.  Note that an
Invalid Date is still an object and therefore truthy, and `isNaN` applied to
it yields `true`.

The parsing performed by `new Date(string)` is implementation-defined beyond
the ISO format, so it enters the model as an explicit parameter
`f : String → JSDate`.  Per ECMA-262 the `Date` constructor never throws on
a string argument (unparseable input yields an Invalid Date), which
`jsNewDate` records by always returning `Except.ok`. -/

abbrev JSDate : Type := Option Int

/-- `new Date(dateStr)` including its (absent) exception behavior. -/
def jsNewDate (f : String → JSDate) (s : String) : Except Unit JSDate :=
  Except.ok (f s)

/-- `parseKindleDate` from the source: `try { return new Date(dateStr); }
catch (e) { return null; }`.  The result is a JavaScript value that is either
a `Date` (`some d`) or `null` (`none`). -/
def parseKindleDate (f : String → JSDate) (dateStr : String) : Option JSDate :=
  match jsNewDate f dateStr with
  | Except.ok d => some d
  | Except.error _ => none

/-- Result of `parseMetadata` (the source returns the four-element array
`[noteType, location, page, dateAdded]`). -/
structure Metadata where
  noteType : String
  location : String
  page : Option String
  dateAdded : JSDate
deriving DecidableEq

/-- `parseMetadata` from the source.  `f` is the ambient `new Date(string)`
parser and `now` the current clock reading (`new Date()` evaluates to the
valid date `some now`). -/
def parseMetadata (f : String → JSDate) (now : Int) (metadataLine : String) : Metadata :=
  let l := metadataLine.data
  let noteType :=
    if hasSubstr ("Highlight".data) l then "Highlight"
    else if hasSubstr ("Bookmark".data) l then "Bookmark"
    else if hasSubstr ("Note".data) l then "Note"
    else "Unknown"
  let location :=
    match locationSearch l with
    | some ds => String.mk ds
    | none => ""
  let page := (pageSearch l).map String.mk
  let dateAdded :=
    match addedSearch l with
    | some ds =>
      let dateStr := String.mk ds
      match jsNewDate f dateStr with
      | Except.ok d =>
        if d = none then
          -- isNaN(dateAdded): the first parse produced an Invalid Date;
          -- `dateAdded = kindleDate || new Date()` selects `kindleDate`
          -- whenever it is truthy, i.e. whenever it is a Date object —
          -- Invalid Dates included.
          match parseKindleDate f dateStr with
          | some kd => kd
          | none => some now
        else d
      | Except.error _ => some now
    | none => some now
  ⟨noteType, location, page, dateAdded⟩

/-- The `KindleNote` record (`src/js/models.js`): a constructor that copies
its seven arguments into fields. -/
structure KindleNote where
  bookTitle : String
  author : String
  noteType : String
  location : String
  page : Option String
  dateAdded : JSDate
  content : String
deriving DecidableEq

/-- The non-blank trimmed lines of an entry:
`entry.split('\n').map(line => line.trim()).filter(line => line)`. -/
def entryLines (entry : String) : List (List Char) :=
  ((splitNl entry.data).map jsTrim).filter (fun l => l ≠ [])

/-- `parseEntry` from the source: require at least two usable lines, then
line 0 gives title/author, line 1 the metadata, the remaining lines joined
with newlines give the content. -/
def parseEntry (f : String → JSDate) (now : Int) (entry : String) : Option KindleNote :=
  match entryLines entry with
  | l0 :: l1 :: rest =>
    let ta := parseTitleAuthor (String.mk l0)
    let md := parseMetadata f now (String.mk l1)
    let content := String.mk (List.intercalate ['\n'] rest)
    some ⟨ta.1, ta.2, md.noteType, md.location, md.page, md.dateAdded, content⟩
  | _ => none

/-- The mutable state of the parser object: the flat list `this.notes` and
the grouping `this.books`, the latter a string-keyed map in key-insertion
order, modelled as an association list. -/
structure ParserState where
  notes : List KindleNote
  books : List (String × List KindleNote)
deriving DecidableEq

/-- One step of the `this.books` update:
`if (!this.books[title]) this.books[title] = []; this.books[title].push(note)`. -/
def addNoteToBooks (books : List (String × List KindleNote)) (n : KindleNote) :
    List (String × List KindleNote) :=
  if (books.lookup n.bookTitle).isSome then
    books.map (fun p => if p.1 = n.bookTitle then (p.1, p.2 ++ [n]) else p)
  else
    books ++ [(n.bookTitle, [n])]

/-- The body of the `entries.forEach` loop in `parseFile`. -/
def processEntry (f : String → JSDate) (now : Int) (st : ParserState) (chunk : List Char) :
    ParserState :=
  let t := jsTrim chunk
  if t = [] then st
  else
    match parseEntry f now (String.mk t) with
    | none => st
    | some n => ⟨st.notes ++ [n], addNoteToBooks st.books n⟩

/-- `parseFile` from the source: split on the delimiter, reset the state,
process each entry in order. -/
def parseFile (f : String → JSDate) (now : Int) (content : String) : ParserState :=
  (splitTen content.data).foldl (processEntry f now) ⟨[], []⟩

/-- Result of `getStatistics`. -/
structure Stats where
  totalNotes : Nat
  totalBooks : Nat
  highlights : Nat
  bookmarks : Nat
  notes : Nat
deriving DecidableEq

/-- `getStatistics` from the source: the flat count, the number of keys of
`this.books`, and one filtered count for each of the three named kinds. -/
def getStatistics (st : ParserState) : Stats :=
  ⟨st.notes.length,
   st.books.length,
   (st.notes.filter (fun n => n.noteType == "Highlight")).length,
   (st.notes.filter (fun n => n.noteType == "Bookmark")).length,
   (st.notes.filter (fun n => n.noteType == "Note")).length⟩

/-! ## Location sorting -/

/-- `extractLocationNumber` from the source: 0 for an empty (falsy) string,
otherwise `parseInt` of the first digit run found by `/(\d+)/`, or 0 when
there is none. -/
def digitsToNat (ds : List Char) : Nat :=
  ds.foldl (fun a c => 10 * a + (c.toNat - 48)) 0

def firstDigitRun : List Char → Option (List Char)
  | [] => none
  | c :: r => if jsIsDigit c then some ((c :: r).takeWhile jsIsDigit) else firstDigitRun r

def extractLocationNumber (locationStr : String) : Nat :=
  if locationStr.data = [] then 0
  else
    match firstDigitRun locationStr.data with
    | some ds => digitsToNat ds
    | none => 0

/-- The sort key used by the comparator of `sortNotesByLocation`. -/
def locKey (n : KindleNote) : Nat :=
  extractLocationNumber n.location

def noteLe (a b : KindleNote) : Prop :=
  locKey a ≤ locKey b

instance : DecidableRel noteLe := fun a b => Nat.decLe (locKey a) (locKey b)

instance : IsTotal KindleNote noteLe :=
  ⟨fun a b => Nat.le_total (locKey a) (locKey b)⟩

instance : IsTrans KindleNote noteLe :=
  ⟨fun _ _ _ => Nat.le_trans⟩

/-- The ordering computed by `sortNotesByLocation`.  The source calls
`Array.prototype.sort` with the comparator
`(a, b) => extractLocationNumber(a.location) - extractLocationNumber(b.location)`,
whose sign agrees with `noteLe` on the two arguments; `Array.prototype.sort`
is specified to be stable (ECMA-262, ES2019 onwards), and a stable sort for a
total preorder has a unique result, here computed by stable insertion sort. -/
def sortNotesByLocation (notes : List KindleNote) : List KindleNote :=
  List.insertionSort noteLe notes

/-- A heap of JavaScript arrays, for the in-place behavior of
`Array.prototype.sort`: reference `r` denotes the array stored at index `r`. -/
abbrev Store : Type := List (List KindleNote)

/-- `sortNotesByLocation` as the caller observes it: `notes.sort(cmp)` sorts
the array object in place (the heap cell is overwritten with the reordered
contents) and evaluates to the very same reference it was given. -/
def sortNotesByLocationInPlace (r : Nat) (σ : Store) : Nat × Store :=
  (r, σ.set r (sortNotesByLocation (σ.getD r [])))

example : extractLocationNumber "150-152" = 150 := by decide
example : extractLocationNumber "" = 0 := by decide
example : extractLocationNumber "x" = 0 := by decide

/-- A date parser that fails on every string (an engine recognizing none of
the formats in the input at hand); used to instantiate concrete evaluations
whose outcome does not depend on successful date parsing. -/
def noDate : String → JSDate := fun _ => none

/-- A date parser that accepts every string. -/
def anyDate : String → JSDate := fun _ => some 0

/-- The end-to-end scenario input of the specification. -/
def scenarioText : String :=
  "Deep Work (Cal Newport)\n- Your Highlight on Location 150-152 | Added on Monday, January 1, 2024 12:00:00 PM\n\nFocus is the new IQ.\n==========\nDeep Work (Cal Newport)\n- Your Bookmark on Location 300 | Added on Monday, January 1, 2024 1:00:00 PM\n==========\n"

example : getStatistics (parseFile anyDate 0 scenarioText) = ⟨2, 1, 1, 1, 0⟩ := by decide

/-! ## Title cleaning (`cleanBookTitle`)

Each `String.prototype.replace` call of the source is translated into an
executable function with the same leftmost/greedy semantics.  The patterns
built from the author string go through `escapeRegex` in the source, so the
author text is matched literally; the model matches it literally by
construction. -/

/-- Case-insensitive literal prefix removal; `none` when the prefix is
absent. -/
def ciStripPre : List Char → List Char → Option (List Char)
  | [], l => some l
  | _ :: _, [] => none
  | p :: ps, c :: cs => if ciEq p c then ciStripPre ps cs else none

/-- `replace(/^vdoc\.?pub_?/i, '')` and `replace(/^dokumen\.?pub_?/i, '')`,
parameterized by the site name.  The greedy `\.?` consumes a dot when
`pub` follows it; a dot that is not followed by `pub` can never be matched
by the literal `pub` either, so the whole anchored pattern fails and the
string is returned unchanged. -/
def stripSiteTag (base : List Char) (l : List Char) : List Char :=
  match ciStripPre base l with
  | none => l
  | some r1 =>
    let viaDot :=
      match r1 with
      | '.' :: t => ciStripPre ("pub".data) t
      | _ => none
    match viaDot <|> ciStripPre ("pub".data) r1 with
    | some r2 =>
      match r2 with
      | '_' :: t2 => t2
      | _ => r2
    | none => l

/-- `replace(/\b\d{6,}\b/g, '')`: remove every maximal digit run of length
at least 6 that has a word boundary on both sides.  Positions strictly
inside a digit run can never start a match (digit next to digit is no
boundary), so scanning run-by-run is exact.  `startOk` records whether the
character before the current position is a non-word character (or the start
of the string); `run` accumulates the digit run in progress. -/
def rmdAux : Bool → List Char → List Char → List Char
  | startOk, run, [] => if startOk && decide (6 ≤ run.length) then [] else run
  | startOk, run, c :: r =>
    if jsIsDigit c then rmdAux startOk (run ++ [c]) r
    else
      let keep := if startOk && decide (6 ≤ run.length) && !(jsIsWordChar c) then [] else run
      keep ++ c :: rmdAux (!(jsIsWordChar c)) [] r

def rmLongDigits (l : List Char) : List Char :=
  rmdAux true [] l

/-- `replace(/[-_]+/g, ' ')`: each maximal run of hyphens/underscores
becomes a single space. -/
def dashAux : Bool → List Char → List Char
  | _, [] => []
  | inRun, c :: r =>
    if c == '-' || c == '_' then
      if inRun then dashAux true r else ' ' :: dashAux true r
    else c :: dashAux false r

def dashesToSpaces (l : List Char) : List Char :=
  dashAux false l

/-- `replace(/\s+/g, ' ')`: each maximal whitespace run becomes a single
space. -/
def collapseWsAux : Bool → List Char → List Char
  | _, [] => []
  | inRun, c :: r =>
    if jsIsSpace c then
      if inRun then collapseWsAux true r else ' ' :: collapseWsAux true r
    else c :: collapseWsAux false r

def collapseWs (l : List Char) : List Char :=
  collapseWsAux false l

/-- `split(/\s+/)`: pieces between maximal whitespace runs (a leading run
produces a leading empty piece, as in JavaScript). -/
def splitWsAux : Bool → List Char → List Char → List (List Char)
  | _, [], acc => [acc.reverse]
  | inSep, c :: r, acc =>
    if jsIsSpace c then
      if inSep then splitWsAux true r acc
      else acc.reverse :: splitWsAux true r []
    else splitWsAux false r (c :: acc)

def splitWs (l : List Char) : List (List Char) :=
  splitWsAux false l []

def isWordOpt : Option Char → Bool
  | some c => jsIsWordChar c
  | none => false

/-- Anchored-at-`p` matcher for `/\b<word>\b\s*$/i`: the literal word
(case-insensitively), a word boundary on each side, then only whitespace to
the end of the string. -/
def trailMatchAt (w : List Char) (prev : Option Char) (rest : List Char) : Bool :=
  match w.head?, w.getLast? with
  | some w0, some wl =>
    ciStartsWith w rest &&
    (isWordOpt prev != jsIsWordChar w0) &&
    (jsIsWordChar wl != isWordOpt ((rest.drop w.length).head?)) &&
    (rest.drop w.length).all jsIsSpace
  | _, _ => false

/-- Leftmost search for `trailMatchAt`; returns the kept prefix when a match
exists (the match always extends to the end of the string). -/
def rmTrailGo (w : List Char) : Option Char → List Char → Option (List Char)
  | prev, [] => if trailMatchAt w prev [] then some [] else none
  | prev, c :: r =>
    if trailMatchAt w prev (c :: r) then some []
    else (rmTrailGo w (some c) r).map (fun kept => c :: kept)

/-- `replace(/\b<word>\b\s*$/i, '').trim()` (the source always trims the
replacement result). -/
def rmTrailingCI (w l : List Char) : List Char :=
  match rmTrailGo w none l with
  | some kept => jsTrim kept
  | none => jsTrim l

/-- Anchored-at-`p` matcher for `/\s*\([^)]*\)\s*$/`. -/
def parenMatchAt (rest : List Char) : Bool :=
  match rest.dropWhile jsIsSpace with
  | '(' :: t =>
    let B := t.takeWhile (fun c => c ≠ ')')
    match t.drop B.length with
    | ')' :: r2 => r2.all jsIsSpace
    | _ => false
  | _ => false

def parenGo : List Char → Option (List Char)
  | [] => none
  | c :: r =>
    if parenMatchAt (c :: r) then some []
    else (parenGo r).map (fun kept => c :: kept)

/-- `replace(/\s*\([^)]*\)\s*$/g, '').trim()`: since every match must reach
the end-of-string anchor, at most one (the leftmost) match exists even with
the `g` flag. -/
def rmTrailParen (l : List Char) : List Char :=
  match parenGo l with
  | some kept => jsTrim kept
  | none => jsTrim l

def editionAlts : List (List Char) :=
  ["second edition".data, "first edition".data, "revised".data, "updated".data]

/-- Anchored-at-`p` matcher for
`/\s*(second edition|first edition|revised|updated)\s*$/i`.  The `\s*` is
forced to consume the whole whitespace run (no alternative starts with
whitespace); which alternative matches does not affect the replacement. -/
def editionMatchAt (rest : List Char) : Bool :=
  let t := rest.dropWhile jsIsSpace
  editionAlts.any (fun alt => ciStartsWith alt t && (t.drop alt.length).all jsIsSpace)

def editionGo : List Char → Option (List Char)
  | [] => none
  | c :: r =>
    if editionMatchAt (c :: r) then some []
    else (editionGo r).map (fun kept => c :: kept)

/-- `replace(/\s*(second edition|first edition|revised|updated)\s*$/i, '')`
(no trim in the source at this step). -/
def rmEdition (l : List Char) : List Char :=
  match editionGo l with
  | some kept => kept
  | none => l

/-- `replace(/[-_.]+$/, '')`: drop the maximal trailing run of hyphens,
underscores and dots. -/
def dropTrailingPunct (l : List Char) : List Char :=
  (l.reverse.dropWhile (fun c => c == '-' || c == '_' || c == '.')).reverse

def stopWords : List (List Char) :=
  ["the".data, "a".data, "an".data, "and".data, "or".data, "but".data, "in".data,
   "on".data, "at".data, "to".data, "for".data, "of".data, "with".data, "by".data]

def lowerAll (w : List Char) : List Char :=
  w.map Char.toLower

/-- `word.charAt(0).toUpperCase() + word.slice(1).toLowerCase()`. -/
def capFirstLowerRest (w : List Char) : List Char :=
  match w with
  | [] => []
  | c :: r => Char.toUpper c :: lowerAll r

def capWord (isFirst : Bool) (w : List Char) : List Char :=
  let lw := lowerAll w
  if isFirst || !(stopWords.contains lw) then capFirstLowerRest w else lw

def capitalizeWords (l : List Char) : List Char :=
  match splitWs l with
  | [] => []
  | w :: ws => List.intercalate ([' ']) (capWord true w :: ws.map (capWord false))

/-- `cleanBookTitle` from the source, the whole ordered pipeline. -/
def cleanBookTitle (bookTitle author : String) : String :=
  let t1 := stripSiteTag ("vdoc".data) bookTitle.data
  let t2 := stripSiteTag ("dokumen".data) t1
  let t3 := rmLongDigits t2
  let t4 := dashesToSpaces t3
  let t5 := jsTrim (collapseWs t4)
  let t6 :=
    if jsTrim author.data ≠ [] then
      let authorTrim := jsTrim author.data
      let afterFull := rmTrailingCI authorTrim t5
      let afterWords := (splitWs authorTrim).foldl
        (fun acc w => if 2 < w.length then rmTrailingCI w acc else acc) afterFull
      rmTrailParen afterWords
    else t5
  let t7 := rmEdition t6
  let t8 := jsTrim (dropTrailingPunct t7)
  let t9 := if t8 ≠ [] then capitalizeWords t8 else t8
  if t9 = [] then bookTitle else String.mk t9

example :
    cleanBookTitle "dokumen.pub_great-expectations-0123456789" "Charles Dickens"
      = "Great Expectations" := by decide
example : cleanBookTitle "vdocpub_foo-bar" "" = "Foo Bar" := by decide
example : cleanBookTitle "vdoc.xpub_a" "" = "Vdoc.xpub a" := by decide
example : cleanBookTitle "foo second edition" "" = "Foo" := by decide
example : cleanBookTitle "Deep Work Cal Newport" "Cal Newport" = "Deep Work" := by decide

/-! ## Auxiliary definitions used by the claim statements -/

/-- The decomposition described by the title pattern
`/^(.+?)\s*\(([^)]+)\)$/`: a non-empty title part without line terminators,
optional whitespace, and a non-empty parenthesized group containing no
closing parenthesis, anchored at the end of the line.  Stated independently
of the matcher so that soundness/completeness of `matchTA` are meaningful
theorems. -/
def taDecomp (l T A : List Char) : Prop :=
  ∃ W, l = T ++ W ++ '(' :: (A ++ [')']) ∧ T ≠ [] ∧ T.all jsDot ∧
    W.all jsIsSpace ∧ A ≠ [] ∧ A.all (fun c => c ≠ ')')

/-- An entry (delimiter chunk) whose parse, if it produces a record at all,
obtains its `dateAdded` from a successfully parsed `"Added on "` date string
rather than from the ambient clock. -/
def entryDateOk (f : String → JSDate) (chunk : List Char) : Bool :=
  let t := jsTrim chunk
  if t = [] then true
  else
    match entryLines (String.mk t) with
    | _ :: l1 :: _ =>
      match addedSearch l1 with
      | some ds => (f (String.mk ds)).isSome
      | none => false
    | _ => true

/-- Every entry of the input satisfies `entryDateOk`. -/
def allDatesParse (f : String → JSDate) (content : String) : Bool :=
  (splitTen content.data).all (entryDateOk f)

/-- A record differing only in its location, for concrete ordering examples. -/
def exampleNote (loc : String) : KindleNote :=
  ⟨"B", "A", "Highlight", loc, none, some 0, ""⟩

/-- Input producing one Highlight, one Bookmark and two Unknown-kind records
under a single title. -/
def mixedText : String :=
  "B\n- q Highlight\n==========\nB\n- q Bookmark\n==========\nB\n- q\n==========\nB\n- q\n=========="

/-- The structural invariant tying `this.books` to `this.notes`: keys are
distinct, each group is the in-order sublist of the flat list carrying its
key, a key is present exactly when some record carries it, and the groups
concatenate to a permutation of the flat list. -/
def BooksInv (st : ParserState) : Prop :=
  (st.books.map Prod.fst).Nodup ∧
  (∀ t l, (t, l) ∈ st.books → l = st.notes.filter (fun n => n.bookTitle == t)) ∧
  (∀ t, t ∈ st.books.map Prod.fst ↔ ∃ n ∈ st.notes, n.bookTitle = t) ∧
  List.Perm (st.books.map Prod.snd).flatten st.notes

/-! ## Helper lemmas -/

theorem lookup_isSome_iff (books : List (String × List KindleNote)) (t : String) :
    (List.lookup t books).isSome = true ↔ t ∈ books.map Prod.fst := by
  induction books with
  | nil => simp [List.lookup]
  | cons p r ih =>
    cases p with
    | mk k v =>
      by_cases h : t = k
      · subst h
        simp [List.lookup]
      · have hb : (t == k) = false := by simp [h]
        simp only [List.lookup, hb, List.map_cons, List.mem_cons, ih]
        constructor
        · intro hh
          exact Or.inr hh
        · intro hh
          cases hh with
          | inl hh => exact absurd hh h
          | inr hh => exact hh

theorem filter_orderedInsert_of_eq (x : KindleNote) (k : Nat) (hx : locKey x = k)
    (l : List KindleNote) :
    (List.orderedInsert noteLe x l).filter (fun n => locKey n == k)
      = x :: l.filter (fun n => locKey n == k) := by
  induction l with
  | nil => simp [List.orderedInsert, List.filter_cons, hx]
  | cons b t ih =>
    by_cases hle : noteLe x b
    · simp [List.orderedInsert, if_pos hle, List.filter_cons, hx]
    · have hbk : (locKey b == k) = false := by
        have hlt : locKey b < locKey x := Nat.lt_of_not_le (fun hh => hle hh)
        simp only [beq_eq_false_iff_ne, ne_eq]
        intro hc
        rw [hc, ← hx] at hlt
        exact Nat.lt_irrefl _ (hx ▸ hlt)
      simp only [List.orderedInsert, if_neg hle, List.filter_cons, hbk]
      simp only [Bool.false_eq_true, if_false, ih]

theorem filter_orderedInsert_of_ne (x : KindleNote) (k : Nat) (hx : locKey x ≠ k)
    (l : List KindleNote) :
    (List.orderedInsert noteLe x l).filter (fun n => locKey n == k)
      = l.filter (fun n => locKey n == k) := by
  have hxk : (locKey x == k) = false := by simpa using hx
  induction l with
  | nil => simp [List.orderedInsert, List.filter_cons, hxk]
  | cons b t ih =>
    by_cases hle : noteLe x b
    · simp [List.orderedInsert, if_pos hle, List.filter_cons, hxk]
    · simp only [List.orderedInsert, if_neg hle, List.filter_cons]
      by_cases hbk : (locKey b == k) = true
      · simp only [hbk, if_true, ih]
      · simp only [Bool.not_eq_true] at hbk
        simp only [hbk, Bool.false_eq_true, if_false, ih]

theorem filter_insertionSort (k : Nat) (l : List KindleNote) :
    (List.insertionSort noteLe l).filter (fun n => locKey n == k)
      = l.filter (fun n => locKey n == k) := by
  induction l with
  | nil => rfl
  | cons a t ih =>
    by_cases ha : locKey a = k
    · rw [List.insertionSort, filter_orderedInsert_of_eq a k ha, ih, List.filter_cons,
        if_pos (by simp [ha])]
    · rw [List.insertionSort, filter_orderedInsert_of_ne a k ha, ih, List.filter_cons,
        if_neg (by simp [ha])]

theorem notes_foldl (f : String → JSDate) (now : Int) :
    ∀ (chunks : List (List Char)) (st : ParserState),
      (chunks.foldl (processEntry f now) st).notes =
        st.notes ++ (((chunks.map jsTrim).filter (fun l => l ≠ [])).filterMap
          (fun l => parseEntry f now (String.mk l)))
  | [], st => by simp
  | c :: cs, st => by
    rw [List.foldl_cons, notes_foldl f now cs]
    by_cases ht : jsTrim c = []
    · simp [processEntry, ht]
    · simp only [processEntry, if_neg ht, List.map_cons, List.filter_cons, if_pos ht,
        decide_not]
      rw [if_pos (by simpa using ht)]
      cases hp : parseEntry f now (String.mk (jsTrim c)) with
      | none => simp [List.filterMap_cons, hp]
      | some n => simp [List.filterMap_cons, hp, List.append_assoc]

theorem parseMetadata_now_indep (f : String → JSDate) (n1 n2 : Int) (l1 : List Char)
    (ds : List Char) (ha : addedSearch l1 = some ds) (hv : (f (String.mk ds)).isSome = true) :
    parseMetadata f n1 (String.mk l1) = parseMetadata f n2 (String.mk l1) := by
  obtain ⟨v, hv2⟩ := Option.isSome_iff_exists.1 hv
  have hdata : (String.mk l1).data = l1 := rfl
  simp only [parseMetadata, jsNewDate, hdata, ha, hv2]
  rfl

theorem processEntry_now_indep (f : String → JSDate) (n1 n2 : Int) (chunk : List Char)
    (hok : entryDateOk f chunk = true) (st : ParserState) :
    processEntry f n1 st chunk = processEntry f n2 st chunk := by
  unfold processEntry
  by_cases ht : jsTrim chunk = []
  · simp [ht]
  · simp only [if_neg ht]
    suffices hpe : parseEntry f n1 (String.mk (jsTrim chunk))
        = parseEntry f n2 (String.mk (jsTrim chunk)) by rw [hpe]
    unfold entryDateOk at hok
    rw [if_neg ht] at hok
    unfold parseEntry
    cases hl : entryLines (String.mk (jsTrim chunk)) with
    | nil => rfl
    | cons l0 rest =>
      cases rest with
      | nil => rfl
      | cons l1 r2 =>
        rw [hl] at hok
        dsimp only at hok ⊢
        cases ha : addedSearch l1 with
        | none => rw [ha] at hok; exact absurd hok (by simp)
        | some ds =>
          rw [ha] at hok
          rw [parseMetadata_now_indep f n1 n2 l1 ds ha hok]

theorem foldl_now_indep (f : String → JSDate) (n1 n2 : Int) :
    ∀ (chunks : List (List Char)) (st : ParserState),
      chunks.all (entryDateOk f) = true →
      chunks.foldl (processEntry f n1) st = chunks.foldl (processEntry f n2) st
  | [], _, _ => rfl
  | c :: cs, st, h => by
    rw [List.all_cons, Bool.and_eq_true] at h
    rw [List.foldl_cons, List.foldl_cons, processEntry_now_indep f n1 n2 c h.1 st]
    exact foldl_now_indep f n1 n2 cs _ h.2

theorem invalidDate_kept (f : String → JSDate) (now : Int) (line : String) (ds : List Char)
    (ha : addedSearch line.data = some ds) (hf : f (String.mk ds) = none) :
    (parseMetadata f now line).dateAdded = none := by
  simp only [parseMetadata, jsNewDate, parseKindleDate, ha, hf]
  rfl

/-! ## Claim theorems -/

/-- C1: when the metadata line carries an `"Added on "` date string that the
date parser cannot parse, the stored `dateAdded` is NOT the current time: it
is the Invalid Date produced by the failed parse.  Both parse passes run
`new Date(dateStr)`; the second returns the Invalid Date object, which is
truthy, so `dateAdded = kindleDate || new Date()` keeps the Invalid Date and
the `new Date()` fallback is dead code.  Evaluated at a concrete failing
input with `now = 5`. -/
theorem c1_unparseable_date_is_invalid_not_now :
    (parseMetadata noDate 5 "- Your Highlight on Location 1 | Added on gibberish").dateAdded
        = (none : JSDate) ∧
    (parseMetadata noDate 5 "- Your Highlight on Location 1 | Added on gibberish").dateAdded
        ≠ some 5 :=
  ⟨by decide, by decide⟩

/-- C3: an entry with fewer than two non-blank trimmed lines parses to no
record, and for every input text the parse is the total function whose note
list is exactly the per-entry parse filter-mapped over the trimmed non-empty
delimiter chunks — malformed entries are skipped, never an error. -/
theorem c3_short_entries_skipped_parse_total (f : String → JSDate) (now : Int) :
    (∀ entry : String, (entryLines entry).length < 2 → parseEntry f now entry = none) ∧
    (∀ content : String,
      (parseFile f now content).notes =
        (((splitTen content.data).map jsTrim).filter (fun l => l ≠ [])).filterMap
          (fun l => parseEntry f now (String.mk l))) := by
  constructor
  · intro entry h
    unfold parseEntry
    cases hl : entryLines entry with
    | nil => rfl
    | cons l0 rest =>
      cases rest with
      | nil => rfl
      | cons l1 r2 =>
        rw [hl] at h
        simp only [List.length_cons] at h
        exact absurd h (by omega)
  · intro content
    unfold parseFile
    rw [notes_foldl f now (splitTen content.data) ⟨[], []⟩]
    rfl

/-- Witness for C3 at a one-line entry. -/
theorem c3_witness :
    (entryLines "only one line").length < 2 ∧ parseEntry noDate 0 "only one line" = none :=
  ⟨by decide, (c3_short_entries_skipped_parse_total noDate 0).1 "only one line" (by decide)⟩

/-- C5: `sortNotesByLocation` returns a permutation of its input that is
sorted ascending by the integer parsed from the first digit run of each
location (`locKey`, 0 when there is none), it is stable (the subsequence
with any fixed key is preserved), and on locations "10", "2", "10-20" it
yields the order "2", "10", "10-20". -/
theorem c5_sort_stable_ascending (notes : List KindleNote) :
    List.Perm (sortNotesByLocation notes) notes ∧
    List.Sorted noteLe (sortNotesByLocation notes) ∧
    (∀ k, (sortNotesByLocation notes).filter (fun n => locKey n == k)
        = notes.filter (fun n => locKey n == k)) ∧
    sortNotesByLocation [exampleNote "10", exampleNote "2", exampleNote "10-20"]
      = [exampleNote "2", exampleNote "10", exampleNote "10-20"] :=
  ⟨List.perm_insertionSort noteLe notes,
   List.sorted_insertionSort noteLe notes,
   fun k => filter_insertionSort k notes,
   by decide⟩

/-- C8: the title-cleaning pipeline on the specified concrete input. -/
theorem c8_clean_title_example :
    cleanBookTitle "dokumen.pub_great-expectations-0123456789" "Charles Dickens"
      = "Great Expectations" := by
  decide

/-- C9: the device-specific second date pass computes exactly the value of
the general-purpose first pass `new Date(dateStr)` and never returns null
for a string argument (the `catch` branch is unreachable); consequently it
cannot produce a valid date on a string for which the first pass produced an
Invalid Date. -/
theorem c9_second_pass_equals_first (f : String → JSDate) (s : String) :
    parseKindleDate f s = some (f s) ∧
    parseKindleDate f s ≠ none ∧
    (f s = none → ∀ d, parseKindleDate f s = some d → d = none) := by
  refine ⟨rfl, by simp [parseKindleDate, jsNewDate], ?_⟩
  intro h d hd
  have : (some (f s) : Option JSDate) = some d := hd
  cases this
  exact h

/-- Witness for C9 with a parser that fails on the given string. -/
theorem c9_witness :
    noDate "x" = none ∧ (∀ d, parseKindleDate noDate "x" = some d → d = none) :=
  ⟨rfl, (c9_second_pass_equals_first noDate "x").2.2 rfl⟩

/-- C10: `sortNotesByLocation` sorts the array in place and evaluates to the
same reference: the returned reference equals the argument, the heap cell at
that reference now holds the reordered contents, every other cell is
untouched, and the heap is otherwise unchanged — the pre-sort ordering
survives nowhere. -/
theorem c10_sort_in_place (r : Nat) (σ : Store) (h : r < σ.length) :
    (sortNotesByLocationInPlace r σ).1 = r ∧
    (sortNotesByLocationInPlace r σ).2.getD r [] = sortNotesByLocation (σ.getD r []) ∧
    (∀ q, q ≠ r → (sortNotesByLocationInPlace r σ).2.getD q [] = σ.getD q []) ∧
    (sortNotesByLocationInPlace r σ).2.length = σ.length := by
  refine ⟨rfl, ?_, ?_, ?_⟩
  · simp [sortNotesByLocationInPlace, List.getD_eq_getElem?_getD, List.getElem?_set_self h]
  · intro q hq
    simp [sortNotesByLocationInPlace, List.getD_eq_getElem?_getD,
      List.getElem?_set_ne (Ne.symm hq)]
  · simp [sortNotesByLocationInPlace]

/-- Witness for C10: a one-array heap whose unsorted contents are reordered
in the cell itself. -/
theorem c10_witness :
    0 < ([[exampleNote "10", exampleNote "2"]] : Store).length ∧
    (sortNotesByLocationInPlace 0 [[exampleNote "10", exampleNote "2"]]).1 = 0 ∧
    (sortNotesByLocationInPlace 0 [[exampleNote "10", exampleNote "2"]]).2
      = [[exampleNote "2", exampleNote "10"]] :=
  ⟨by decide,
   (c10_sort_in_place 0 [[exampleNote "10", exampleNote "2"]] (by decide)).1,
   by decide⟩

/-- C4 counterexample: parsing the same text at two different clock readings
gives different record lists — the entry has no parseable date, so its
`dateAdded` is the clock value of the respective parse. -/
theorem c4_counterexample :
    parseFile noDate 0 "B\n- q" ≠ parseFile noDate 1 "B\n- q" := by
  decide

/-- C4 (amended): the parse is a deterministic function of the text, the
date parser and the clock; the clock influences nothing but the `dateAdded`
fallback, so whenever every entry carries a date string the parser accepts,
parsing at any two clock readings yields identical (element-wise equal)
record lists — in particular, repeated parses of such a text coincide. -/
theorem c4_parse_clock_independent (f : String → JSDate) (n1 n2 : Int) (content : String)
    (h : allDatesParse f content = true) :
    parseFile f n1 content = parseFile f n2 content := by
  unfold parseFile
  exact foldl_now_indep f n1 n2 (splitTen content.data) ⟨[], []⟩ h

/-- Witness for C4 at a text whose single entry has an accepted date. -/
theorem c4_witness :
    allDatesParse anyDate "B\n- q | Added on D" = true ∧
    parseFile anyDate 0 "B\n- q | Added on D" = parseFile anyDate 7 "B\n- q | Added on D" :=
  ⟨by decide, c4_parse_clock_independent anyDate 0 7 "B\n- q | Added on D" (by decide)⟩

/-! ## The grouping invariant -/

theorem map_upd_id (t : String) (n : KindleNote) :
    ∀ (A : List (String × List KindleNote)), t ∉ A.map Prod.fst →
      A.map (fun p => if p.1 = t then (p.1, p.2 ++ [n]) else p) = A
  | [], _ => rfl
  | p :: r, h => by
    rw [List.map_cons, List.mem_cons] at h
    push_neg at h
    rw [List.map_cons, if_neg (fun hc => h.1 hc.symm), map_upd_id t n r h.2]

theorem mem_fst_decomp {books : List (String × List KindleNote)} {t : String}
    (hnd : (books.map Prod.fst).Nodup) (ht : t ∈ books.map Prod.fst) :
    ∃ A l0 B, books = A ++ (t, l0) :: B ∧ t ∉ A.map Prod.fst ∧ t ∉ B.map Prod.fst := by
  induction books with
  | nil => simp at ht
  | cons p r ih =>
    cases p with
    | mk k v =>
      rw [List.map_cons, List.nodup_cons] at hnd
      rw [List.map_cons, List.mem_cons] at ht
      by_cases hk : t = k
      · subst hk
        exact ⟨[], v, r, by simp, by simp, hnd.1⟩
      · have ht2 : t ∈ r.map Prod.fst := ht.resolve_left hk
        obtain ⟨A, l0, B, hb, hA, hB⟩ := ih hnd.2 ht2
        refine ⟨(k, v) :: A, l0, B, by rw [hb]; rfl, ?_, hB⟩
        simp [hk, hA]

theorem booksInv_step {st : ParserState} (h : BooksInv st) (n : KindleNote) :
    BooksInv ⟨st.notes ++ [n], addNoteToBooks st.books n⟩ := by
  obtain ⟨hnd, hgrp, hmem, hperm⟩ := h
  by_cases hlk : (st.books.lookup n.bookTitle).isSome = true
  · -- the key is already present: its group is extended
    have htk : n.bookTitle ∈ st.books.map Prod.fst := (lookup_isSome_iff _ _).1 hlk
    obtain ⟨A, l0, B, hb, hA, hB⟩ := mem_fst_decomp hnd htk
    have hupd : addNoteToBooks st.books n = A ++ (n.bookTitle, l0 ++ [n]) :: B := by
      unfold addNoteToBooks
      rw [if_pos hlk, hb, List.map_append, List.map_cons]
      rw [map_upd_id _ n A hA, map_upd_id _ n B hB]
      simp
    have hkeys : (A ++ (n.bookTitle, l0 ++ [n]) :: B).map Prod.fst = st.books.map Prod.fst := by
      rw [hb]
      simp [List.map_append, List.map_cons]
    have hl0 : l0 = st.notes.filter (fun m => m.bookTitle == n.bookTitle) := by
      apply hgrp
      rw [hb]
      exact List.mem_append_right _ (List.mem_cons_self _ _)
    refine ⟨?_, ?_, ?_, ?_⟩
    · simpa [hupd, hkeys] using hnd
    · intro t2 l2 hmem2
      rw [hupd] at hmem2
      rcases List.mem_append.1 hmem2 with hin | hin
      · have ht2A : t2 ∈ A.map Prod.fst := List.mem_map_of_mem Prod.fst hin
        have hne : n.bookTitle ≠ t2 := fun hc => hA (hc ▸ ht2A)
        have hold : l2 = st.notes.filter (fun m => m.bookTitle == t2) := by
          apply hgrp
          rw [hb]
          exact List.mem_append_left _ hin
        rw [List.filter_append, hold]
        simp [List.filter_cons, beq_eq_false_iff_ne, hne]
      · rcases List.mem_cons.1 hin with heq | hin2
        · rw [Prod.mk.injEq] at heq
          obtain ⟨rfl, rfl⟩ := heq
          rw [List.filter_append, ← hl0]
          simp [List.filter_cons]
        · have ht2B : t2 ∈ B.map Prod.fst := List.mem_map_of_mem Prod.fst hin2
          have hne : n.bookTitle ≠ t2 := fun hc => hB (hc ▸ ht2B)
          have hold : l2 = st.notes.filter (fun m => m.bookTitle == t2) := by
            apply hgrp
            rw [hb]
            exact List.mem_append_right _ (List.mem_cons_of_mem _ hin2)
          rw [List.filter_append, hold]
          simp [List.filter_cons, beq_eq_false_iff_ne, hne]
    · intro t2
      rw [hupd]
      rw [show (A ++ (n.bookTitle, l0 ++ [n]) :: B).map Prod.fst = st.books.map Prod.fst
        from hkeys]
      constructor
      · intro htk2
        obtain ⟨m, hm, hmt⟩ := (hmem t2).1 htk2
        exact ⟨m, List.mem_append_left _ hm, hmt⟩
      · rintro ⟨m, hm, hmt⟩
        rcases List.mem_append.1 hm with hm2 | hm2
        · exact (hmem t2).2 ⟨m, hm2, hmt⟩
        · have : m = n := by simpa using hm2
          subst this
          exact hmt ▸ htk
    · rw [hupd, List.perm_iff_count]
      intro a
      have hcount := List.perm_iff_count.1 hperm a
      rw [hb] at hcount
      simp only [List.map_append, List.map_cons, List.flatten_append, List.flatten_cons,
        List.count_append] at hcount ⊢
      omega
  · -- new key: a fresh singleton group is appended
    have htk : n.bookTitle ∉ st.books.map Prod.fst :=
      fun hc => hlk ((lookup_isSome_iff _ _).2 hc)
    have hupd : addNoteToBooks st.books n = st.books ++ [(n.bookTitle, [n])] := by
      unfold addNoteToBooks
      rw [if_neg hlk]
    have hfilter_nil : st.notes.filter (fun m => m.bookTitle == n.bookTitle) = [] := by
      apply List.filter_eq_nil_iff.2
      intro m hm hmb
      apply htk
      apply (hmem n.bookTitle).2
      exact ⟨m, hm, by simpa using hmb⟩
    refine ⟨?_, ?_, ?_, ?_⟩
    · rw [hupd, List.map_append]
      rw [List.nodup_append]
      refine ⟨hnd, by simp, ?_⟩
      intro x hx
      simp only [List.map_cons, List.map_nil, List.mem_singleton]
      intro hc
      exact htk (hc ▸ hx)
    · intro t2 l2 hmem2
      rw [hupd] at hmem2
      rcases List.mem_append.1 hmem2 with hin | hin
      · have ht2 : t2 ∈ st.books.map Prod.fst := List.mem_map_of_mem Prod.fst hin
        have hne : n.bookTitle ≠ t2 := fun hc => htk (hc ▸ ht2)
        rw [List.filter_append, hgrp t2 l2 hin]
        simp [List.filter_cons, beq_eq_false_iff_ne, hne]
      · have heq : (t2, l2) = (n.bookTitle, [n]) := by simpa using hin
        rw [Prod.mk.injEq] at heq
        obtain ⟨rfl, rfl⟩ := heq
        rw [List.filter_append, hfilter_nil]
        simp [List.filter_cons]
    · intro t2
      rw [hupd, List.map_append]
      simp only [List.map_cons, List.map_nil, List.mem_append, List.mem_singleton]
      constructor
      · intro hk2
        rcases hk2 with hk2 | hk2
        · obtain ⟨m, hm, hmt⟩ := (hmem t2).1 hk2
          exact ⟨m, Or.inl hm, hmt⟩
        · exact ⟨n, Or.inr rfl, hk2.symm⟩
      · rintro ⟨m, hm, hmt⟩
        rcases hm with hm2 | hm2
        · exact Or.inl ((hmem t2).2 ⟨m, hm2, hmt⟩)
        · subst hm2
          exact Or.inr hmt.symm
    · rw [hupd, List.perm_iff_count]
      intro a
      have hcount := List.perm_iff_count.1 hperm a
      simp only [List.map_append, List.map_cons, List.map_nil, List.flatten_append,
        List.flatten_cons, List.flatten_nil, List.count_append, List.count_nil] at hcount ⊢
      omega

theorem booksInv_foldl (f : String → JSDate) (now : Int) :
    ∀ (chunks : List (List Char)) (st : ParserState),
      BooksInv st → BooksInv (chunks.foldl (processEntry f now) st)
  | [], _, h => h
  | c :: cs, st, h => by
    rw [List.foldl_cons]
    apply booksInv_foldl f now cs
    unfold processEntry
    by_cases ht : jsTrim c = []
    · simpa [ht] using h
    · rw [if_neg ht]
      cases hp : parseEntry f now (String.mk (jsTrim c)) with
      | none => exact h
      | some n => exact booksInv_step h n

theorem booksInv_parseFile (f : String → JSDate) (now : Int) (content : String) :
    BooksInv (parseFile f now content) := by
  unfold parseFile
  apply booksInv_foldl
  refine ⟨List.nodup_nil, ?_, ?_, List.Perm.refl _⟩
  · intro t l hmem
    simp at hmem
  · intro t
    simp

/-- C6: after every parse the group keys are distinct, each group is exactly
the in-order subsequence of the flat list whose raw `bookTitle` equals the
key (so each record lies in exactly one group, by exact string equality,
with per-group order preserved), every record's title is a key, and the
concatenation of all groups is a permutation of the flat list. -/
theorem c6_grouping_partition (f : String → JSDate) (now : Int) (content : String) :
    ((parseFile f now content).books.map Prod.fst).Nodup ∧
    (∀ t l, (t, l) ∈ (parseFile f now content).books →
      l = (parseFile f now content).notes.filter (fun n => n.bookTitle == t)) ∧
    (∀ n ∈ (parseFile f now content).notes,
      n.bookTitle ∈ (parseFile f now content).books.map Prod.fst) ∧
    List.Perm ((parseFile f now content).books.map Prod.snd).flatten
      (parseFile f now content).notes := by
  obtain ⟨h1, h2, h3, h4⟩ := booksInv_parseFile f now content
  exact ⟨h1, h2, fun n hn => (h3 n.bookTitle).2 ⟨n, hn, rfl⟩, h4⟩

/-- Witness for C6: the concrete group of title "B" equals the filtered flat
list on a one-entry input. -/
theorem c6_witness :
    ("B", [(⟨"B", "Unknown", "Unknown", "", none, some 0, ""⟩ : KindleNote)])
        ∈ (parseFile noDate 0 "B\n- q").books ∧
    [(⟨"B", "Unknown", "Unknown", "", none, some 0, ""⟩ : KindleNote)] =
      (parseFile noDate 0 "B\n- q").notes.filter (fun n => n.bookTitle == "B") :=
  ⟨by decide, (c6_grouping_partition noDate 0 "B\n- q").2.1 "B" _ (by decide)⟩

theorem totalBooks_eq_dedup (f : String → JSDate) (now : Int) (content : String) :
    (parseFile f now content).books.length
      = ((parseFile f now content).notes.map (fun n => n.bookTitle)).dedup.length := by
  obtain ⟨h1, _, h3, _⟩ := booksInv_parseFile f now content
  have hperm : List.Perm ((parseFile f now content).books.map Prod.fst)
      (((parseFile f now content).notes.map (fun n => n.bookTitle)).dedup) := by
    refine (List.perm_ext_iff_of_nodup h1 (List.nodup_dedup _)).2 ?_
    intro t
    rw [List.mem_dedup, h3 t, List.mem_map]
  have hlen := hperm.length_eq
  simpa [List.length_map] using hlen

/-- C2 counterexample: the statistics object reports no count of the
Unknown kind.  On `mixedText` the parse yields exactly 2 Unknown-kind
records, yet none of the five numbers the statistics object carries equals
2 — so no component of the report is the Unknown count. -/
theorem c2_counterexample_no_unknown_count :
    ((parseFile noDate 0 mixedText).notes.filter (fun n => n.noteType == "Unknown")).length = 2 ∧
    (getStatistics (parseFile noDate 0 mixedText)).totalNotes ≠ 2 ∧
    (getStatistics (parseFile noDate 0 mixedText)).totalBooks ≠ 2 ∧
    (getStatistics (parseFile noDate 0 mixedText)).highlights ≠ 2 ∧
    (getStatistics (parseFile noDate 0 mixedText)).bookmarks ≠ 2 ∧
    (getStatistics (parseFile noDate 0 mixedText)).notes ≠ 2 := by
  decide

/-- C2 (amended): the statistics report the flat count, the number of
distinct raw titles, and counts for the three kinds Highlight, Bookmark and
Note (no Unknown count is reported); on the end-to-end scenario input they
are total 2, groups 1, Highlight 1, Bookmark 1, Note 0 — and the scenario
parse indeed contains no Unknown-kind record. -/
theorem c2_statistics_counts (f : String → JSDate) (now : Int) (content : String) :
    (getStatistics (parseFile f now content)).totalNotes
        = (parseFile f now content).notes.length ∧
    (getStatistics (parseFile f now content)).totalBooks
        = ((parseFile f now content).notes.map (fun n => n.bookTitle)).dedup.length ∧
    (getStatistics (parseFile f now content)).highlights
        = ((parseFile f now content).notes.filter (fun n => n.noteType == "Highlight")).length ∧
    (getStatistics (parseFile f now content)).bookmarks
        = ((parseFile f now content).notes.filter (fun n => n.noteType == "Bookmark")).length ∧
    (getStatistics (parseFile f now content)).notes
        = ((parseFile f now content).notes.filter (fun n => n.noteType == "Note")).length ∧
    getStatistics (parseFile anyDate 0 scenarioText) = ⟨2, 1, 1, 1, 0⟩ ∧
    ((parseFile anyDate 0 scenarioText).notes.filter
        (fun n => n.noteType == "Unknown")).length = 0 :=
  ⟨rfl, totalBooks_eq_dedup f now content, rfl, rfl, rfl, by decide, by decide⟩

/-! ## Soundness and completeness of the title/author matcher -/

theorem dropWhile_all_append (p : Char → Bool) :
    ∀ (W : List Char) (x : Char) (rest : List Char), W.all p = true → p x = false →
      (W ++ x :: rest).dropWhile p = x :: rest
  | [], x, rest, _, hx => by simp [List.dropWhile_cons, hx]
  | w :: ws, x, rest, hW, hx => by
    rw [List.all_cons, Bool.and_eq_true] at hW
    rw [List.cons_append, List.dropWhile_cons]
    simp only [hW.1, if_true]
    exact dropWhile_all_append p ws x rest hW.2 hx

theorem eq_dropLast_concat_of_getLast (l : List Char) (x : Char) (h : l.getLast? = some x) :
    l = l.dropLast ++ [x] := by
  induction l using List.reverseRecOn with
  | nil => simp at h
  | append_singleton m a ih =>
    rw [List.getLast?_concat] at h
    rw [Option.some_inj] at h
    subst h
    rw [List.dropLast_concat]

theorem getLast?_cons_ne_nil (c : Char) (t : List Char) (ht : t ≠ []) :
    (c :: t).getLast? = t.getLast? := by
  cases t with
  | nil => exact absurd rfl ht
  | cons d r => rw [List.getLast?_cons_cons]

theorem taTry_sound {s : List Char} {a : Nat} {T A : List Char}
    (h : taTry s a = some (T, A)) : taDecomp s T A := by
  unfold taTry at h
  dsimp only at h
  split at h
  next hc =>
    rw [Option.some_inj, Prod.mk.injEq] at h
    obtain ⟨hT, hB⟩ := h
    obtain ⟨h1, h2, h3, h4, h5, h6, h7⟩ := hc
    cases hr : (s.drop a).dropWhile jsIsSpace with
    | nil =>
      rw [hr] at h3
      simp at h3
    | cons c t =>
      rw [hr] at h3 h4 h6 h7 hB
      have hc0 : c = '(' := by simpa using h3
      subst hc0
      simp only [List.drop_one, List.tail_cons] at h6 h7 hB
      have ht : t ≠ [] := by
        intro hnil
        rw [hnil] at h6
        simp at h6
      rw [getLast?_cons_ne_nil _ t ht] at h4
      have htl : t = A ++ [')'] := by
        have := eq_dropLast_concat_of_getLast t ')' h4
        rw [hB] at this
        exact this
      have hdw : s.drop a = (s.drop a).takeWhile jsIsSpace ++ ('(' :: (A ++ [')'])) := by
        conv_lhs => rw [← List.takeWhile_append_dropWhile jsIsSpace (s.drop a)]
        rw [hr, htl]
      refine ⟨(s.drop a).takeWhile jsIsSpace, ?_, ?_, ?_, List.all_takeWhile, ?_, ?_⟩
      · calc s = s.take a ++ s.drop a := (List.take_append_drop a s).symm
          _ = T ++ s.drop a := by rw [hT]
          _ = T ++ (s.drop a).takeWhile jsIsSpace ++ ('(' :: (A ++ [')'])) := by
              conv_lhs => rw [hdw]
              rw [List.append_assoc]
      · rw [← hT]
        exact h1
      · rw [← hT]
        exact h2
      · rw [← hB]
        exact h6
      · rw [← hB]
        exact h7
  next hc =>
    exact absurd h (by simp)

theorem taTry_at_decomp {s T A : List Char} (h : taDecomp s T A) :
    taTry s T.length = some (T, A) := by
  obtain ⟨W, hs, hT, hTd, hW, hA, hAp⟩ := h
  subst hs
  have htake : ((T ++ W ++ '(' :: (A ++ [')'])).take T.length) = T := by
    rw [List.append_assoc]
    exact List.take_left T _
  have hdrop : ((T ++ W ++ '(' :: (A ++ [')'])).drop T.length) = W ++ '(' :: (A ++ [')']) := by
    rw [List.append_assoc]
    exact List.drop_left T _
  have hdw : (((T ++ W ++ '(' :: (A ++ [')'])).drop T.length).dropWhile jsIsSpace)
      = '(' :: (A ++ [')']) := by
    rw [hdrop]
    exact dropWhile_all_append jsIsSpace W '(' (A ++ [')']) hW (by decide)
  have hlast : ('(' :: (A ++ [')'])).getLast? = some ')' := by
    rw [getLast?_cons_ne_nil '(' (A ++ [')']) (by simp)]
    exact List.getLast?_concat A
  have hBe : (('(' :: (A ++ [')'])).drop 1).dropLast = A := by
    simp only [List.drop_one, List.tail_cons]
    exact List.dropLast_concat
  have hlen : 2 ≤ ('(' :: (A ++ [')'])).length := by simp
  unfold taTry
  dsimp only
  rw [htake, hdw, hBe]
  rw [if_pos ⟨hT, hTd, rfl, hlast, hlen, hA, hAp⟩]

theorem taGo_sound :
    ∀ (fuel a : Nat) {s : List Char} {p : List Char × List Char},
      taGo fuel s a = some p → ∃ b, taTry s b = some p
  | 0, a, s, p, h => by simp [taGo] at h
  | fuel + 1, a, s, p, h => by
    unfold taGo at h
    by_cases hge : a ≥ s.length
    · rw [if_pos hge] at h
      exact absurd h (by simp)
    · rw [if_neg hge] at h
      cases htry : taTry s a with
      | some r =>
        rw [htry] at h
        rw [Option.some_inj] at h
        exact ⟨a, h ▸ htry⟩
      | none =>
        rw [htry] at h
        exact taGo_sound fuel (a + 1) h

theorem taGo_some {s : List Char} {b : Nat} (hb : b < s.length) (hne : taTry s b ≠ none) :
    ∀ (fuel a : Nat), a ≤ b → s.length - a ≤ fuel → taGo fuel s a ≠ none
  | 0, a, ha, hf => by
    exfalso
    omega
  | fuel + 1, a, ha, hf => by
    unfold taGo
    rw [if_neg (by omega : ¬ a ≥ s.length)]
    cases htry : taTry s a with
    | some r => simp
    | none =>
      have hab : a ≠ b := fun hc => hne (hc ▸ htry)
      exact taGo_some hb hne fuel (a + 1) (by omega) (by omega)

theorem matchTA_sound {s T A : List Char} (h : matchTA s = some (T, A)) : taDecomp s T A := by
  obtain ⟨b, hb⟩ := taGo_sound s.length 1 h
  exact taTry_sound hb

theorem matchTA_ne_none {s T A : List Char} (h : taDecomp s T A) : matchTA s ≠ none := by
  have hcopy := h
  obtain ⟨W, hs, hT, hTd, hW, hA, hAp⟩ := hcopy
  have hlen : T.length < s.length := by
    rw [hs]
    simp only [List.length_append, List.length_cons]
    have : 0 < A.length := List.length_pos.2 hA
    omega
  have h1 : 1 ≤ T.length := by
    have : 0 < T.length := List.length_pos.2 hT
    omega
  have hne : taTry s T.length ≠ none := by
    rw [taTry_at_decomp h]
    simp
  unfold matchTA
  exact taGo_some hlen hne s.length 1 h1 (by omega)

/-- C7: if the (BOM-stripped) title line admits a decomposition into a
title part, optional whitespace and a parenthesized group anchored at the
end of the line, `parseTitleAuthor` returns the trimmed title part and the
trimmed parenthesized text of the decomposition the pattern selects;
otherwise it returns the full (BOM-stripped) line with author "Unknown" —
in particular on "Some Notes Without Parens". -/
theorem c7_title_author (line : String) :
    ((∃ T A, taDecomp (stripBOM line.data) T A) →
      ∃ T A, matchTA (stripBOM line.data) = some (T, A) ∧
        taDecomp (stripBOM line.data) T A ∧
        parseTitleAuthor line = (String.mk (jsTrim T), String.mk (jsTrim A))) ∧
    ((¬ ∃ T A, taDecomp (stripBOM line.data) T A) →
      parseTitleAuthor line = (String.mk (stripBOM line.data), "Unknown")) ∧
    parseTitleAuthor "Some Notes Without Parens"
      = ("Some Notes Without Parens", "Unknown") := by
  refine ⟨?_, ?_, by decide⟩
  · rintro ⟨T, A, hd⟩
    cases hm : matchTA (stripBOM line.data) with
    | none => exact absurd hm (matchTA_ne_none hd)
    | some p =>
      obtain ⟨T2, A2⟩ := p
      refine ⟨T2, A2, rfl, matchTA_sound hm, ?_⟩
      unfold parseTitleAuthor
      dsimp only
      rw [hm]
  · intro hnone
    cases hm : matchTA (stripBOM line.data) with
    | none =>
      unfold parseTitleAuthor
      dsimp only
      rw [hm]
    | some p =>
      obtain ⟨T2, A2⟩ := p
      exact absurd ⟨T2, A2, matchTA_sound hm⟩ hnone

/-- Witness for C7: a line admitting a decomposition, with the resulting
title/author pair computed through the theorem. -/
theorem c7_witness :
    (∃ T A, taDecomp (stripBOM ("My Book (An Author)" : String).data) T A) ∧
    parseTitleAuthor "My Book (An Author)" = ("My Book", "An Author") := by
  have hex : ∃ T A, taDecomp (stripBOM ("My Book (An Author)" : String).data) T A :=
    ⟨("My Book").data, ("An Author").data, [' '], by decide, by decide, by decide,
      by decide, by decide, by decide⟩
  refine ⟨hex, ?_⟩
  obtain ⟨T, A, hm, hd, hres⟩ := (c7_title_author "My Book (An Author)").1 hex
  have hma : matchTA (stripBOM ("My Book (An Author)" : String).data)
      = some (("My Book").data, ("An Author").data) := by decide
  rw [hma, Option.some_inj, Prod.mk.injEq] at hm
  obtain ⟨hT, hA⟩ := hm
  subst hT
  subst hA
  rw [hres]
  decide
